import Mathlib

/-!
Verification of the `abide` snapshot-testing library against its
natural-language specification.

The Go sources are shallowly embedded: Go strings become `List Char`,
Go byte slices become `List Char`, Go maps become association lists with
explicit overwrite semantics, JSON documents become an inductive `Json`
type, and the external collaborators (the text-diff and JSON-diff
libraries, the JSON codec of the standard library) are treated as
black boxes, either modelled by simple concrete functions or abstracted
behind a record of oracles, exactly as §1 of the specification
prescribes ("external collaborators ... invoked as black-box services").
-/

/-! ## Basic string machinery (Go `strings` package operations) -/

/-- Helper used by the split functions: prepend a character to the first
piece of a non-empty list of pieces. -/
def cons1 (c : Char) : List (List Char) → List (List Char)
  | [] => [[c]]
  | p :: ps => (c :: p) :: ps

/-- Embedding of Go `strings.Split(s, sep)` for a single-character
separator: splits around every occurrence of the separator. -/
def splitOnChar (sep : Char) : List Char → List (List Char)
  | [] => [[]]
  | c :: cs =>
    if c = sep then [] :: splitOnChar sep cs
    else cons1 c (splitOnChar sep cs)

/-- Fuelled worker for `splitOnL`.  The fuel is only a structural-recursion
device; any fuel of at least the length of the input gives the same
result (`splitOnF_fuel`). -/
def splitOnF (sep : List Char) : Nat → List Char → List (List Char)
  | 0, l => [l]
  | _ + 1, [] => [[]]
  | fuel + 1, c :: cs =>
    if sep.isPrefixOf (c :: cs) then
      [] :: splitOnF sep fuel (List.drop (sep.length - 1) cs)
    else cons1 c (splitOnF sep fuel cs)

/-- Embedding of Go `strings.Split(s, sep)` for a non-empty multi-character
separator: splits around every leftmost-first, non-overlapping occurrence
of `sep`. -/
def splitOnL (sep l : List Char) : List (List Char) := splitOnF sep l.length l

/-- Embedding of Go `strings.TrimSpace` restricted to one side: drop
leading whitespace. -/
def trimLeftL (s : List Char) : List Char := s.dropWhile Char.isWhitespace

/-- Embedding of Go `strings.TrimSpace`: drop leading and trailing
whitespace. -/
def trimL (s : List Char) : List Char :=
  ((s.dropWhile Char.isWhitespace).reverse.dropWhile Char.isWhitespace).reverse

/-- Embedding of Go `strings.TrimSuffix(s, suf)`: drop one trailing copy
of `suf` when present. -/
def trimSuffixL (s suf : List Char) : List Char :=
  if suf.isSuffixOf s then s.take (s.length - suf.length) else s

/-- Embedding of Go `strings.Join(parts, sep)` for a single-character
separator. -/
def joinSep (sep : Char) : List (List Char) → List Char
  | [] => []
  | [p] => p
  | p :: ps => p ++ sep :: joinSep sep ps

/-- Embedding of Go `strings.SplitAfterN(s, "\n", 2)`: at most two pieces,
the first one ending just after the first newline. -/
def splitAfterNl2 : List Char → List (List Char)
  | [] => [[]]
  | c :: cs => if c = '\n' then [[c], cs] else cons1 c (splitAfterNl2 cs)

/-! ## Content-type classification (`assert_http.go`, `contentTypeIsJSON`) -/

/-- Embedding of `contentTypeIsJSON` from `assert_http.go`: the value is
JSON when the part before the first `;` is exactly `application/json`, or
is a vendor media type (prefixed `application/vnd.` and suffixed `+json`). -/
def contentTypeIsJSON (contentType : List Char) : Bool :=
  let contentTypeParts := splitOnChar ';' contentType
  let firstPart := contentTypeParts.headI
  let isPlainJSON := firstPart == "application/json".toList
  if isPlainJSON then isPlainJSON
  else
    let isVendor := "application/vnd.".toList.isPrefixOf firstPart
    let isJSON := "+json".toList.isSuffixOf firstPart
    isVendor && isJSON

/-! ### Lemmas about the split functions -/

theorem splitOnChar_ne_nil (sep : Char) (l : List Char) : splitOnChar sep l ≠ [] := by
  cases l with
  | nil => simp [splitOnChar]
  | cons c cs =>
    simp only [splitOnChar]
    split
    · simp
    · unfold cons1
      split <;> simp_all

theorem headI_cons1 {m : List (List Char)} (c : Char) (h : m ≠ []) :
    (cons1 c m).headI = c :: m.headI := by
  cases m with
  | nil => exact absurd rfl h
  | cons p ps => rfl

theorem headI_splitOnChar (sep : Char) (l : List Char) :
    (splitOnChar sep l).headI = l.takeWhile (· != sep) := by
  induction l with
  | nil => rfl
  | cons c cs ih =>
    by_cases h : c = sep
    · simp [splitOnChar, h]
    · simp only [splitOnChar, if_neg h, List.takeWhile_cons,
        headI_cons1 c (splitOnChar_ne_nil sep cs), ih]
      simp [h]

theorem splitOnChar_of_not_mem {sep : Char} {l : List Char} (h : sep ∉ l) :
    splitOnChar sep l = [l] := by
  induction l with
  | nil => rfl
  | cons c cs ih =>
    simp only [List.mem_cons, not_or] at h
    simp only [splitOnChar, if_neg (Ne.symm h.1), ih h.2]
    rfl

/-! ### Claims C7 and C8: content-type classification -/

theorem contentTypeIsJSON_vendor (s : List Char) (h : ';' ∉ s) :
    contentTypeIsJSON ("application/vnd.".toList ++ s ++ "+json".toList) = true := by
  have hmem : ';' ∉ "application/vnd.".toList ++ s ++ "+json".toList := by
    intro hc
    rcases List.mem_append.mp hc with hc | hc
    · rcases List.mem_append.mp hc with hc | hc
      · revert hc; decide
      · exact h hc
    · revert hc; decide
  unfold contentTypeIsJSON
  rw [splitOnChar_of_not_mem hmem]
  have hne : (("application/vnd.".toList ++ s ++ "+json".toList) ==
      "application/json".toList) = false := by
    apply beq_false_of_ne
    intro heq
    have := congrArg List.length heq
    simp at this
  simp only [List.headI, hne, Bool.false_eq_true, if_false]
  have hpre : "application/vnd.".toList.isPrefixOf
      ("application/vnd.".toList ++ s ++ "+json".toList) = true := by
    rw [ List.isPrefixOf_iff_prefix, List.append_assoc]
    exact List.prefix_append _ _
  have hsuf : "+json".toList.isSuffixOf
      ("application/vnd.".toList ++ s ++ "+json".toList) = true := by
    rw [ List.isSuffixOf_iff_suffix]
    exact List.suffix_append _ _
  rw [hpre, hsuf]
  rfl

/-- Claim C7: `contentTypeIsJSON` accepts exactly `application/json` and
`application/vnd.*+json` vendor media types; in particular it accepts
`application/json` and `application/vnd.acme.v1+json` and rejects
`text/plain` and `application/jsonish`. -/
theorem contentTypeIsJSON_classification :
    contentTypeIsJSON "application/json".toList = true ∧
    contentTypeIsJSON "application/vnd.acme.v1+json".toList = true ∧
    contentTypeIsJSON "text/plain".toList = false ∧
    contentTypeIsJSON "application/jsonish".toList = false ∧
    (∀ s : List Char, ';' ∉ s →
      contentTypeIsJSON ("application/vnd.".toList ++ s ++ "+json".toList) = true) := by
  refine ⟨by decide, by decide, by decide, by decide, contentTypeIsJSON_vendor⟩

/-- Witness for C7: the universally quantified vendor clause applied to the
concrete subtype `acme.v2`. -/
theorem contentTypeIsJSON_classification_witness :
    contentTypeIsJSON ("application/vnd.".toList ++ "acme.v2".toList ++ "+json".toList) = true :=
  contentTypeIsJSON_classification.2.2.2.2 "acme.v2".toList (by decide)

/-- Claim C8: classification ignores media-type parameters — only the part
of the header value before the first semicolon determines the result, and
`application/json; charset=utf-8` classifies as JSON. -/
theorem contentTypeIsJSON_ignores_params :
    (∀ s : List Char,
      contentTypeIsJSON s = contentTypeIsJSON (s.takeWhile (· != ';'))) ∧
    contentTypeIsJSON "application/json; charset=utf-8".toList = true := by
  constructor
  · intro s
    have hfp : ';' ∉ s.takeWhile (· != ';') := by
      intro hc
      have := List.mem_takeWhile_imp hc
      simp at this
    simp only [contentTypeIsJSON, splitOnChar_of_not_mem hfp]
    rw [headI_splitOnChar]
    simp [List.headI]
  · decide

/-! ## JSON documents and key-path substitution (`json.go`) -/

/-- Generic JSON document, the embedding of Go's
`map[string]interface{}` / `[]interface{}` / scalar universe produced by
`encoding/json.Unmarshal`.  Numbers keep their literal text: no claim
depends on numeric semantics. -/
inductive Json where
  | null : Json
  | boolean : Bool → Json
  | str : List Char → Json
  | num : List Char → Json
  | arr : List Json → Json
  | obj : List (List Char × Json) → Json

mutual

/-- Embedding of `updateMap` from `json.go`, acting on the fields of one
object: slices have their object elements rewritten, nested objects are
recursed into, and any other (scalar) value is replaced when its key
matches. -/
def updateMap (key : List Char) (value : Json) : List (List Char × Json) → List (List Char × Json)
  | [] => []
  | (k, v) :: rest => updateMapEntry key value k v :: updateMap key value rest

/-- One `case` arm of the type switch inside `updateMap`. -/
def updateMapEntry (key : List Char) (value : Json) (k : List Char) :
    Json → (List Char × Json)
  | .arr s => (k, .arr (updateMapElems key value s))
  | .obj o => (k, .obj (updateMap key value o))
  | v => if k = key then (k, value) else (k, v)

/-- The slice iteration inside `updateMap`: only elements that are objects
are rewritten. -/
def updateMapElems (key : List Char) (value : Json) : List Json → List Json
  | [] => []
  | .obj o :: rest => .obj (updateMap key value o) :: updateMapElems key value rest
  | e :: rest => e :: updateMapElems key value rest

end

/-- Embedding of `updateKeyValuesInMap` from `json.go`, the public wrapper
around `updateMap`. -/
def updateKeyValuesInMap (key : List Char) (value : Json)
    (m : List (List Char × Json)) : List (List Char × Json) :=
  updateMap key value m

/-- A JSON value that is neither an object nor an array, i.e. one that the
`default` arm of the type switch in `updateMap` handles. -/
def scalarJson : Json → Bool
  | .arr _ => false
  | .obj _ => false
  | _ => true

/-- Steps of a path into a JSON document: an object field or an array
index. -/
inductive JStep where
  | fld : List Char → JStep
  | idx : Nat → JStep

instance : Inhabited Json := ⟨Json.null⟩

/-- Follow a path into a JSON document. -/
def jget : Json → List JStep → Option Json
  | j, [] => some j
  | .obj o, .fld k :: p =>
    match o.lookup k with
    | some v => jget v p
    | none => none
  | .arr s, .idx n :: p =>
    match s[n]? with
    | some v => jget v p
    | none => none
  | _, _ => none

/-- The positions that the recursion of `updateMap` reaches, starting from
the fields of a top-level object: the object itself, any object-valued
field, and any object element of an array-valued field. -/
inductive ReachesObj :
    List (List Char × Json) → List JStep → List (List Char × Json) → Prop
  | here (o : List (List Char × Json)) : ReachesObj o [] o
  | throughObj (o o₂ o' : List (List Char × Json)) (p : List JStep) (k : List Char) :
      o.lookup k = some (.obj o') → ReachesObj o' p o₂ →
      ReachesObj o (.fld k :: p) o₂
  | throughArr (o o₂ o' : List (List Char × Json)) (p : List JStep) (s : List Json)
      (k : List Char) (n : Nat) :
      o.lookup k = some (.arr s) → s[n]? = some (.obj o') → ReachesObj o' p o₂ →
      ReachesObj o (.fld k :: .idx n :: p) o₂

theorem updateMapEntry_fst (key : List Char) (value : Json) (k : List Char) (v : Json) :
    (updateMapEntry key value k v).1 = k := by
  cases v <;> simp [updateMapEntry] <;> split <;> rfl

theorem lookup_updateMap (key : List Char) (value : Json)
    (o : List (List Char × Json)) (k : List Char) :
    (updateMap key value o).lookup k =
      (o.lookup k).map (fun v => (updateMapEntry key value k v).2) := by
  induction o with
  | nil => rfl
  | cons kv rest ih =>
    obtain ⟨k', v⟩ := kv
    by_cases h : k = k'
    · subst h
      have h1 : updateMapEntry key value k v = (k, (updateMapEntry key value k v).2) := by
        cases v <;> simp [updateMapEntry] <;> split <;> rfl
      rw [updateMap, h1]
      simp [List.lookup]
    · have h1 : updateMapEntry key value k' v = (k', (updateMapEntry key value k' v).2) := by
        cases v <;> simp [updateMapEntry] <;> split <;> rfl
      rw [updateMap, h1]
      simp only [List.lookup, beq_false_of_ne h, ih]

theorem getElem?_updateMapElems (key : List Char) (value : Json)
    (s : List Json) (n : Nat) :
    (updateMapElems key value s)[n]? =
      (s[n]?).map (fun e =>
        match e with
        | .obj o => Json.obj (updateMap key value o)
        | e => e) := by
  induction s generalizing n with
  | nil => simp [updateMapElems]
  | cons e rest ih =>
    have hstep : updateMapElems key value (e :: rest) =
        (match e with
          | .obj o => Json.obj (updateMap key value o)
          | e => e) :: updateMapElems key value rest := by
      cases e <;> rfl
    rw [hstep]
    cases n with
    | zero => simp
    | succ m => simpa using ih m

theorem updateMapEntry_scalar (key : List Char) (value : Json) (k : List Char)
    {w : Json} (hw : scalarJson w = true) :
    (updateMapEntry key value k w).2 = if k = key then value else w := by
  cases w <;> first
    | (simp [updateMapEntry]; split <;> rfl)
    | simp [scalarJson] at hw

/-- Claim C2 (amended): the key-path substitution replaces the value of
every reachable occurrence of `key` whose value is a scalar (neither an
object nor an array) with `value`, and leaves scalar values of every other
key unchanged; positions are those the recursion visits (object fields and
object elements of array fields, at any depth). -/
theorem updateKeyValuesInMap_replaces_scalars (key : List Char) (value : Json)
    {o o₂ : List (List Char × Json)} {p : List JStep}
    (h : ReachesObj o p o₂) (k : List Char) (w : Json)
    (hsc : scalarJson w = true) :
    o₂.lookup k = some w →
    jget (.obj (updateKeyValuesInMap key value o)) (p ++ [.fld k]) =
      some (if k = key then value else w) := by
  induction h with
  | here o =>
    intro hw
    have h1 : (updateMap key value o).lookup k =
        some ((updateMapEntry key value k w).2) := by
      rw [lookup_updateMap, hw]; rfl
    simp only [updateKeyValuesInMap, List.nil_append, jget, h1]
    rw [updateMapEntry_scalar key value k hsc]
  | throughObj o oy o' p' k₀ hk₀ hre ih =>
    intro hw
    have h1 : (updateMap key value o).lookup k₀ =
        some (Json.obj (updateMap key value o')) := by
      rw [lookup_updateMap, hk₀]; rfl
    simp only [updateKeyValuesInMap, List.cons_append, jget, h1]
    exact ih hw
  | throughArr o oy o' p' s k₀ n hk₀ hn hre ih =>
    intro hw
    have h1 : (updateMap key value o).lookup k₀ =
        some (Json.arr (updateMapElems key value s)) := by
      rw [lookup_updateMap, hk₀]; rfl
    have h2 : (updateMapElems key value s)[n]? =
        some (Json.obj (updateMap key value o')) := by
      rw [getElem?_updateMapElems, hn]; rfl
    simp only [updateKeyValuesInMap, List.cons_append, jget, h1, h2]
    exact ih hw

/-- Witness for the amended C2: a one-field object whose (scalar-valued)
field `k` is the substituted key. -/
theorem updateKeyValuesInMap_replaces_scalars_witness :
    jget (.obj (updateKeyValuesInMap "k".toList (Json.str "x".toList)
        [("k".toList, Json.num "1".toList)])) [JStep.fld "k".toList] =
      some (if "k".toList = "k".toList then Json.str "x".toList
        else Json.num "1".toList) :=
  updateKeyValuesInMap_replaces_scalars "k".toList (Json.str "x".toList)
    (ReachesObj.here _) "k".toList (Json.num "1".toList) rfl rfl

/-- Counterexample to C2 as stated: when the value of the matched key is
itself an object, `updateMap` recurses into it instead of replacing it, so
an occurrence of the key keeps its old (object) value, which differs from
the replacement value. -/
theorem updateKeyValuesInMap_object_value_not_replaced :
    List.lookup "k".toList
        (updateKeyValuesInMap "k".toList (Json.str "x".toList)
          [("k".toList, Json.obj [("a".toList, Json.null)])]) =
      some (Json.obj [("a".toList, Json.null)]) ∧
    Json.obj [("a".toList, Json.null)] ≠ Json.str "x".toList := by
  constructor
  · rfl
  · intro h
    exact Json.noConfusion h

/-! ## Splitting lemmas for the multi-character separator -/

theorem splitOnF_fuel (sep : List Char) :
    ∀ (f g : Nat) (l : List Char), l.length ≤ f → l.length ≤ g →
      splitOnF sep f l = splitOnF sep g l := by
  intro f
  induction f with
  | zero =>
    intro g l hf _
    have : l = [] := List.length_eq_zero.mp (Nat.le_zero.mp hf)
    subst this
    cases g <;> rfl
  | succ f ih =>
    intro g l hf hg
    cases l with
    | nil => cases g <;> rfl
    | cons c cs =>
      cases g with
      | zero => simp at hg
      | succ g' =>
        simp only [splitOnF]
        have hcs : cs.length ≤ f := by simpa using hf
        have hcs' : cs.length ≤ g' := by simpa using hg
        split
        · have hlen : (List.drop (sep.length - 1) cs).length ≤ cs.length := by
            simp
          rw [ih g' _ (le_trans hlen hcs) (le_trans hlen hcs')]
        · rw [ih g' cs hcs hcs']

theorem splitOnL_sep_head (sep b : List Char) (hsep : sep ≠ []) :
    splitOnL sep (sep ++ b) = [] :: splitOnL sep b := by
  obtain ⟨s0, st, rfl⟩ := List.exists_cons_of_ne_nil hsep
  have hpre : (s0 :: st).isPrefixOf ((s0 :: st) ++ b) = true :=
    List.isPrefixOf_iff_prefix.mpr (List.prefix_append _ _)
  have hshape : (s0 :: st) ++ b = s0 :: (st ++ b) := rfl
  have hlen : ((s0 :: st) ++ b).length = (st ++ b).length + 1 := by simp
  unfold splitOnL
  rw [hlen, hshape]
  simp only [splitOnF]
  rw [hshape] at hpre
  rw [if_pos hpre]
  have hdrop : List.drop ((s0 :: st).length - 1) (st ++ b) = b := by
    simp only [List.length_cons, Nat.add_sub_cancel]
    exact List.drop_left st b
  rw [hdrop]
  congr 1
  exact splitOnF_fuel (s0 :: st) _ _ b
    (by rw [List.length_append]; exact Nat.le_add_left _ _) le_rfl

/-- No suffix of `a` (other than the empty one) begins an occurrence of
`sep` in `a ++ rest`: scanning `a ++ rest` finds no occurrence of `sep`
before `rest`. -/
def NoHit (sep a rest : List Char) : Prop :=
  ∀ t, t <:+ a → t ≠ [] → sep.isPrefixOf (t ++ rest) = false

theorem splitOnL_seg (sep a b : List Char) (hsep : sep ≠ [])
    (ha : NoHit sep a (sep ++ b)) :
    splitOnL sep (a ++ (sep ++ b)) = a :: splitOnL sep b := by
  induction a with
  | nil => simpa using splitOnL_sep_head sep b hsep
  | cons c a' ih =>
    have hcond : sep.isPrefixOf ((c :: a') ++ (sep ++ b)) = false :=
      ha (c :: a') (List.suffix_refl _) (List.cons_ne_nil _ _)
    have hlen : ((c :: a') ++ (sep ++ b)).length = (a' ++ (sep ++ b)).length + 1 := by simp
    unfold splitOnL
    rw [hlen]
    have hshape : (c :: a') ++ (sep ++ b) = c :: (a' ++ (sep ++ b)) := rfl
    rw [hshape]
    simp only [splitOnF]
    rw [hshape] at hcond
    rw [if_neg (by simp [hcond])]
    have hrest : splitOnF sep (a' ++ (sep ++ b)).length (a' ++ (sep ++ b)) =
        a' :: splitOnL sep b := by
      have := ih (fun t hts htne => ha t (hts.trans (List.suffix_cons c a')) htne)
      simpa [splitOnL] using this
    rw [hrest]
    rfl

theorem splitOnL_last (sep s : List Char)
    (hs : ∀ t, t <:+ s → t ≠ [] → sep.isPrefixOf t = false) :
    splitOnL sep s = [s] := by
  induction s with
  | nil => rfl
  | cons c s' ih =>
    have hcond : sep.isPrefixOf (c :: s') = false :=
      hs (c :: s') (List.suffix_refl _) (List.cons_ne_nil _ _)
    unfold splitOnL
    simp only [List.length_cons, splitOnF]
    rw [if_neg (by simp [hcond])]
    have hrest : splitOnF sep s'.length s' = [s'] := ih
      (fun t hts htne => hs t (hts.trans (List.suffix_cons c s')) htne)
    rw [hrest]
    rfl

/-- The separator does not overlap itself: no strict rotation aligns a
suffix of the separator with its own beginning. -/
def NoSelfOverlap (sep : List Char) : Prop :=
  ∀ k, k < sep.length → 0 < k → sep.drop k ≠ sep.take (sep.length - k)

theorem noHit_of_sep_not_within {sep a : List Char} (b : List Char)
    (hov : NoSelfOverlap sep) (hinf : ¬ sep <:+: a) :
    NoHit sep a (sep ++ b) := by
  intro t hts htne
  by_contra hpre
  rw [Bool.not_eq_false, List.isPrefixOf_iff_prefix] at hpre
  have heq : sep = (t ++ (sep ++ b)).take sep.length :=
    (List.prefix_iff_eq_take.mp hpre)
  rcases le_or_lt sep.length t.length with hle | hlt
  · have htake : (t ++ (sep ++ b)).take sep.length = t.take sep.length := by
      rw [List.take_append_eq_append_take, Nat.sub_eq_zero_of_le hle]
      simp
    have hpt : sep <+: t := by
      rw [heq, htake]
      exact List.take_prefix _ _
    exact hinf (hpt.isInfix.trans hts.isInfix)
  · have htake : (t ++ (sep ++ b)).take sep.length =
        t ++ sep.take (sep.length - t.length) := by
      rw [List.take_append_eq_append_take]
      have h1 : t.take sep.length = t := List.take_of_length_le (le_of_lt hlt)
      have h2 : (sep ++ b).take (sep.length - t.length) =
          sep.take (sep.length - t.length) := by
        rw [List.take_append_eq_append_take]
        have h0 : sep.length - t.length - sep.length = 0 := by omega
        rw [h0]
        simp
      rw [h1, h2]
    have hsepeq : sep = t ++ sep.take (sep.length - t.length) := heq.trans htake
    have hdrop : sep.drop t.length = sep.take (sep.length - t.length) := by
      conv_lhs => rw [hsepeq]
      exact List.drop_left t _
    exact hov t.length hlt (List.length_pos.mpr htne) hdrop

theorem noFull_of_sep_not_within {sep s : List Char} (hinf : ¬ sep <:+: s) :
    ∀ t, t <:+ s → t ≠ [] → sep.isPrefixOf t = false := by
  intro t hts _
  by_contra hpre
  rw [Bool.not_eq_false, List.isPrefixOf_iff_prefix] at hpre
  exact hinf (hpre.isInfix.trans hts.isInfix)

/-! ## Snapshot records and the on-disk encoding (`snapshot.go`) -/

/-- The record delimiter constant `snapshotSeparator`. -/
def snapshotSeparator : List Char := "/* snapshot: ".toList

/-- The text that closes a delimiter line (the suffix `TrimSuffix` strips
from the first line of each piece). -/
def starNl : List Char := " */\n".toList

/-- The blank-line separator written after each value. -/
def nl2 : List Char := "\n\n".toList

/-- Go map insertion for the id→value table `decode` builds: later
insertions overwrite earlier ones. -/
def updSnap (m : List (List Char × List Char)) (i v : List Char) :
    List (List Char × List Char) :=
  (i, v) :: m.filter (fun p => p.1 != i)

/-- One iteration of the loop in `decode`: the empty piece is skipped;
otherwise the piece is split after its first newline into the delimiter
line and the value.  A piece without a newline makes the Go code index out
of range (a run-time panic), modelled as `none`. -/
def decodeSeg (m : List (List Char × List Char)) (s : List Char) :
    Option (List (List Char × List Char)) :=
  if s = [] then some m
  else
    match splitAfterNl2 s with
    | c0 :: c1 :: _ => some (updSnap m (trimSuffixL c0 starNl) (trimL c1))
    | _ => none

/-- The loop of `decode` over all pieces of the separator split. -/
def decodeGo : List (List Char) → List (List Char × List Char) →
    Option (List (List Char × List Char))
  | [], m => some m
  | s :: rest, m =>
    match decodeSeg m s with
    | some m' => decodeGo rest m'
    | none => none

/-- Embedding of `decode` from `snapshot.go`: split the file contents on
the record delimiter and read each piece as a delimiter line plus trimmed
value.  The Go function returns a `nil` error whenever it returns; `none`
models the run-time panic on a piece that has no newline. -/
def decode (data : List Char) : Option (List (List Char × List Char)) :=
  decodeGo (splitOnL snapshotSeparator data) []

/-- Lexicographic string comparison, the order used by `sort.Strings`. -/
def lexLe : List Char → List Char → Bool
  | [], _ => true
  | _ :: _, [] => false
  | a :: as, b :: bs => if a < b then true else if a = b then lexLe as bs else false

/-- Embedding of `encode` from `snapshot.go`: write one block per record in
sorted identifier order — the delimiter line, then the value and a blank
line — and trim the whole buffer. -/
def encode (snaps : List (List Char × List Char)) : List Char :=
  let ids := snaps.map Prod.fst
  let sorted := ids.mergeSort lexLe
  trimL ((sorted.map (fun i =>
    snapshotSeparator ++ i ++ starNl ++ ((snaps.lookup i).getD []) ++ nl2)).flatten)

/-! ### The block grammar of a well-formed snapshot file -/

/-- The piece following one delimiter: identifier tail, value, blank line. -/
def segOf (i v : List Char) : List Char := i ++ starNl ++ v ++ nl2

/-- The same piece for the final block of a trimmed file (no blank line). -/
def segTrim (i v : List Char) : List Char := i ++ starNl ++ v

/-- A snapshot file as a sequence of blocks. -/
def blocksStr : List (List Char × List Char) → List Char
  | [] => []
  | (i, v) :: rest => (snapshotSeparator ++ segOf i v) ++ blocksStr rest

/-- A snapshot file as written by `encode`: like `blocksStr` but with the
trailing blank line of the final block trimmed away. -/
def blocksTrimmed : List (List Char × List Char) → List Char
  | [] => []
  | [(i, v)] => snapshotSeparator ++ segTrim i v
  | (i, v) :: rest => (snapshotSeparator ++ segOf i v) ++ blocksTrimmed rest

/-- `blocksTrimmed` without its leading delimiter. -/
def blocksTail : List (List Char × List Char) → List Char
  | [] => []
  | [(i, v)] => segTrim i v
  | (i, v) :: rest => segOf i v ++ (snapshotSeparator ++ blocksTail rest)

/-- The pieces the separator split recovers from `blocksStr`. -/
def segsFull (L : List (List Char × List Char)) : List (List Char) :=
  L.map (fun e => segOf e.1 e.2)

/-- The pieces the separator split recovers from `blocksTrimmed`. -/
def segsTrim : List (List Char × List Char) → List (List Char)
  | [] => []
  | [(i, v)] => [segTrim i v]
  | (i, v) :: rest => segOf i v :: segsTrim rest

/-- Constraints under which a block list round-trips: identifiers contain
no newline, values are non-empty and already trimmed, and no block
accidentally contains the record delimiter. -/
def GoodEntry (i v : List Char) : Prop :=
  '\n' ∉ i ∧ v ≠ [] ∧ trimL v = v ∧ ¬ (snapshotSeparator <:+: segOf i v)

def GoodList (L : List (List Char × List Char)) : Prop :=
  (L.map Prod.fst).Nodup ∧ ∀ e ∈ L, GoodEntry e.1 e.2

/-- A well-formed snapshot file: a sequence of blocks, each a delimiter
line `/* snapshot: <id> */`, a value and a blank-line separator. -/
def WellFormedBytes (data : List Char) : Prop :=
  ∃ L, data = blocksStr L ∧ GoodList L

/-! ### Trimming lemmas -/

/-- Right-side half of `trimL`. -/
def trimRightL (s : List Char) : List Char :=
  (s.reverse.dropWhile Char.isWhitespace).reverse

theorem trimL_decomp (s : List Char) : trimL s = trimRightL (trimLeftL s) := rfl

theorem trim_parts {v : List Char} (h : trimL v = v) :
    trimLeftL v = v ∧ trimRightL v = v := by
  have hsub : List.Sublist (trimLeftL v) v := List.dropWhile_sublist _
  have h1 : (trimL v).length ≤ (trimLeftL v).length := by
    rw [trimL_decomp]
    unfold trimRightL
    rw [List.length_reverse]
    calc ((trimLeftL v).reverse.dropWhile Char.isWhitespace).length
        ≤ (trimLeftL v).reverse.length := (List.dropWhile_sublist _).length_le
      _ = (trimLeftL v).length := List.length_reverse _
  have h2 : (trimLeftL v).length ≤ v.length := hsub.length_le
  have hlen : (trimLeftL v).length = v.length := by rw [h] at h1; omega
  have hleft : trimLeftL v = v := hsub.eq_of_length hlen
  refine ⟨hleft, ?_⟩
  rw [trimL_decomp, hleft] at h
  exact h

theorem trimLeftL_cons_of_not_ws {c : Char} (s : List Char)
    (hc : ¬ c.isWhitespace) : trimLeftL (c :: s) = c :: s := by
  unfold trimLeftL
  rw [List.dropWhile_cons_of_neg (by simpa using hc)]

theorem dropWhile_reverse_eq_of_trimRight {v : List Char} (h : trimRightL v = v) :
    v.reverse.dropWhile Char.isWhitespace = v.reverse := by
  have := congrArg List.reverse h
  rwa [trimRightL, List.reverse_reverse] at this

theorem trimRightL_append_ws {v w : List Char} (hw : ∀ c ∈ w, c.isWhitespace)
    (hv : trimRightL v = v) : trimRightL (v ++ w) = v := by
  unfold trimRightL
  rw [List.reverse_append, List.dropWhile_append]
  have hwnil : w.reverse.dropWhile Char.isWhitespace = [] := by
    rw [List.dropWhile_eq_nil_iff]
    intro x hx
    exact hw x (List.mem_reverse.mp hx)
  rw [hwnil]
  simp only [List.isEmpty_nil, if_true]
  have := dropWhile_reverse_eq_of_trimRight hv
  rw [this, List.reverse_reverse]

theorem trimRightL_append_left {x y : List Char} (hy : trimRightL y ≠ []) :
    trimRightL (x ++ y) = x ++ trimRightL y := by
  unfold trimRightL
  rw [List.reverse_append, List.dropWhile_append]
  have hne : (y.reverse.dropWhile Char.isWhitespace).isEmpty = false := by
    cases hD : y.reverse.dropWhile Char.isWhitespace with
    | nil => exact absurd (by unfold trimRightL; rw [hD]; rfl) hy
    | cons a as => rfl
  rw [hne]
  simp [List.reverse_append]

theorem trimRightL_append_keep {x v : List Char} (hv : trimRightL v = v)
    (hne : v ≠ []) : trimRightL (x ++ v) = x ++ v := by
  rw [trimRightL_append_left (by rw [hv]; exact hne), hv]

theorem trimL_append_nl2 {v : List Char} (hv : trimL v = v) (hne : v ≠ []) :
    trimL (v ++ nl2) = v := by
  obtain ⟨hleft, hright⟩ := trim_parts hv
  obtain ⟨c, v', rfl⟩ := List.exists_cons_of_ne_nil hne
  have hcws : ¬ c.isWhitespace := by
    intro hc
    have : trimLeftL (c :: v') = trimLeftL v' := by
      unfold trimLeftL
      rw [List.dropWhile_cons_of_pos (by simpa using hc)]
    rw [this] at hleft
    have := congrArg List.length hleft
    have hd : (trimLeftL v').length ≤ v'.length := (List.dropWhile_sublist _).length_le
    simp only [List.length_cons] at this
    omega
  rw [trimL_decomp]
  have hshape : (c :: v') ++ nl2 = c :: (v' ++ nl2) := rfl
  rw [hshape, trimLeftL_cons_of_not_ws _ hcws, ← hshape]
  exact trimRightL_append_ws (by decide) hright

/-! ### Splitting a block sequence back into its pieces -/

theorem sep_ne_nil : snapshotSeparator ≠ [] := by decide

theorem sep_noSelfOverlap : NoSelfOverlap snapshotSeparator := by
  unfold NoSelfOverlap
  decide

theorem segTrim_isPre (i v : List Char) : segTrim i v <+: segOf i v := by
  refine ⟨nl2, ?_⟩
  simp [segTrim, segOf, List.append_assoc]

theorem not_infix_segTrim {i v : List Char}
    (h : ¬ snapshotSeparator <:+: segOf i v) : ¬ snapshotSeparator <:+: segTrim i v :=
  fun hc => h (hc.trans (segTrim_isPre i v).isInfix)

theorem blocksTrimmed_eq_sep_tail :
    ∀ L : List (List Char × List Char), L ≠ [] →
      blocksTrimmed L = snapshotSeparator ++ blocksTail L := by
  intro L
  match L with
  | [] => intro h; exact absurd rfl h
  | [(i, v)] => intro _; rfl
  | (i, v) :: r :: rs =>
    intro _
    show (snapshotSeparator ++ segOf i v) ++ blocksTrimmed (r :: rs) = _
    rw [blocksTrimmed_eq_sep_tail (r :: rs) (List.cons_ne_nil _ _)]
    show _ = snapshotSeparator ++ (segOf i v ++ (snapshotSeparator ++ blocksTail (r :: rs)))
    simp [List.append_assoc]

theorem splitOn_blocksStr :
    ∀ L : List (List Char × List Char),
      (∀ e ∈ L, ¬ snapshotSeparator <:+: segOf e.1 e.2) →
      splitOnL snapshotSeparator (blocksStr L) = [] :: segsFull L := by
  intro L
  induction L with
  | nil => intro _; rfl
  | cons e rest ih =>
    intro h
    obtain ⟨i, v⟩ := e
    have hseg := h (i, v) (by simp)
    cases rest with
    | nil =>
      show splitOnL snapshotSeparator ((snapshotSeparator ++ segOf i v) ++ blocksStr []) = _
      rw [show blocksStr [] = [] from rfl, List.append_nil,
        splitOnL_sep_head _ _ sep_ne_nil,
        splitOnL_last _ _ (noFull_of_sep_not_within hseg)]
      rfl
    | cons r rs =>
      obtain ⟨ri, rv⟩ := r
      have hbs : blocksStr ((i, v) :: (ri, rv) :: rs) =
          snapshotSeparator ++ (segOf i v ++
            (snapshotSeparator ++ (segOf ri rv ++ blocksStr rs))) := by
        show (snapshotSeparator ++ segOf i v) ++
            ((snapshotSeparator ++ segOf ri rv) ++ blocksStr rs) = _
        simp [List.append_assoc]
      rw [hbs, splitOnL_sep_head _ _ sep_ne_nil,
        splitOnL_seg _ _ _ sep_ne_nil
          (noHit_of_sep_not_within _ sep_noSelfOverlap hseg)]
      have hih := ih (fun e he => h e (List.mem_cons_of_mem _ he))
      have hbs2 : blocksStr ((ri, rv) :: rs) =
          snapshotSeparator ++ (segOf ri rv ++ blocksStr rs) := by
        show (snapshotSeparator ++ segOf ri rv) ++ blocksStr rs = _
        simp [List.append_assoc]
      rw [hbs2, splitOnL_sep_head _ _ sep_ne_nil] at hih
      have htail := (List.cons.injEq _ _ _ _).mp hih
      rw [htail.2]
      rfl

theorem splitOn_blocksTrimmed :
    ∀ L : List (List Char × List Char),
      (∀ e ∈ L, ¬ snapshotSeparator <:+: segOf e.1 e.2) →
      splitOnL snapshotSeparator (blocksTrimmed L) = [] :: segsTrim L := by
  intro L
  match L with
  | [] => intro _; rfl
  | [(i, v)] =>
    intro h
    have hseg := h (i, v) (by simp)
    show splitOnL snapshotSeparator (snapshotSeparator ++ segTrim i v) = _
    rw [splitOnL_sep_head _ _ sep_ne_nil,
      splitOnL_last _ _ (noFull_of_sep_not_within (not_infix_segTrim hseg))]
    rfl
  | (i, v) :: r :: rs =>
    intro h
    obtain ⟨ri, rv⟩ := r
    have hseg := h (i, v) (by simp)
    have hbt : blocksTrimmed ((i, v) :: (ri, rv) :: rs) =
        snapshotSeparator ++ (segOf i v ++
          (snapshotSeparator ++ blocksTail ((ri, rv) :: rs))) := by
      show (snapshotSeparator ++ segOf i v) ++ blocksTrimmed ((ri, rv) :: rs) = _
      rw [blocksTrimmed_eq_sep_tail _ (List.cons_ne_nil _ _)]
      simp [List.append_assoc]
    rw [hbt, splitOnL_sep_head _ _ sep_ne_nil,
      splitOnL_seg _ _ _ sep_ne_nil
        (noHit_of_sep_not_within _ sep_noSelfOverlap hseg)]
    have hih := splitOn_blocksTrimmed ((ri, rv) :: rs)
      (fun e he => h e (List.mem_cons_of_mem _ he))
    rw [blocksTrimmed_eq_sep_tail _ (List.cons_ne_nil _ _),
      splitOnL_sep_head _ _ sep_ne_nil] at hih
    have htail := (List.cons.injEq _ _ _ _).mp hih
    rw [htail.2]
    rfl

/-! ### Decoding the pieces -/

theorem splitAfterNl2_newline_decomp {a : List Char} (r : List Char) (ha : '\n' ∉ a) :
    splitAfterNl2 (a ++ '\n' :: r) = [a ++ ['\n'], r] := by
  induction a with
  | nil => simp [splitAfterNl2]
  | cons c a' ih =>
    have hc : c ≠ '\n' := fun hceq => ha (by simp [hceq])
    have ha' : '\n' ∉ a' := fun hmem => ha (List.mem_cons_of_mem _ hmem)
    show splitAfterNl2 (c :: (a' ++ '\n' :: r)) = _
    simp only [splitAfterNl2, if_neg hc, ih ha']
    rfl

theorem trimSuffixL_append (x suf : List Char) : trimSuffixL (x ++ suf) suf = x := by
  unfold trimSuffixL
  rw [if_pos ( List.isSuffixOf_iff_suffix.mpr (List.suffix_append _ _))]
  have hl : (x ++ suf).length - suf.length = x.length := by simp
  rw [hl]
  exact List.take_left x suf

theorem starNl_decomp : starNl = " */".toList ++ ['\n'] := by decide

theorem segOf_decomp (i v : List Char) :
    segOf i v = (i ++ " */".toList) ++ '\n' :: (v ++ nl2) := by
  simp [segOf, starNl_decomp, List.append_assoc]

theorem segTrim_decomp (i v : List Char) :
    segTrim i v = (i ++ " */".toList) ++ '\n' :: v := by
  simp [segTrim, starNl_decomp, List.append_assoc]

theorem decodeSeg_segOf {m : List (List Char × List Char)} {i : List Char}
    (v : List Char) (hi : '\n' ∉ i) :
    decodeSeg m (segOf i v) = some (updSnap m i (trimL (v ++ nl2))) := by
  have hne : segOf i v ≠ [] := by
    rw [segOf_decomp]
    intro hx
    exact absurd (congrArg List.length hx) (by simp)
  have hmem : '\n' ∉ i ++ " */".toList := by
    intro hx
    rcases List.mem_append.mp hx with hx | hx
    · exact hi hx
    · revert hx; decide
  unfold decodeSeg
  rw [if_neg hne, segOf_decomp, splitAfterNl2_newline_decomp _ hmem]
  show some (updSnap m (trimSuffixL ((i ++ " */".toList) ++ ['\n']) starNl)
      (trimL (v ++ nl2))) = _
  have hc0 : (i ++ " */".toList) ++ ['\n'] = i ++ starNl := by
    simp [starNl_decomp, List.append_assoc]
  rw [hc0, trimSuffixL_append]

theorem decodeSeg_segTrim {m : List (List Char × List Char)} {i : List Char}
    (v : List Char) (hi : '\n' ∉ i) :
    decodeSeg m (segTrim i v) = some (updSnap m i (trimL v)) := by
  have hne : segTrim i v ≠ [] := by
    rw [segTrim_decomp]
    intro hx
    exact absurd (congrArg List.length hx) (by simp)
  have hmem : '\n' ∉ i ++ " */".toList := by
    intro hx
    rcases List.mem_append.mp hx with hx | hx
    · exact hi hx
    · revert hx; decide
  unfold decodeSeg
  rw [if_neg hne, segTrim_decomp, splitAfterNl2_newline_decomp _ hmem]
  show some (updSnap m (trimSuffixL ((i ++ " */".toList) ++ ['\n']) starNl)
      (trimL v)) = _
  have hc0 : (i ++ " */".toList) ++ ['\n'] = i ++ starNl := by
    simp [starNl_decomp, List.append_assoc]
  rw [hc0, trimSuffixL_append]

/-! ### The decode loop over all pieces -/

/-- The table `decode` builds from a block list: every entry inserted in
order with Go map overwrite semantics. -/
def buildFrom : List (List Char × List Char) → List (List Char × List Char) →
    List (List Char × List Char)
  | m, [] => m
  | m, (i, v) :: rest => buildFrom (updSnap m i v) rest

theorem decodeGo_skip_empty (rest : List (List Char)) (m : List (List Char × List Char)) :
    decodeGo ([] :: rest) m = decodeGo rest m := rfl

theorem decodeGo_segsFull :
    ∀ (L : List (List Char × List Char)) (m : List (List Char × List Char)),
      (∀ e ∈ L, '\n' ∉ e.1 ∧ e.2 ≠ [] ∧ trimL e.2 = e.2) →
      decodeGo (segsFull L) m = some (buildFrom m L) := by
  intro L
  induction L with
  | nil => intro m _; rfl
  | cons e rest ih =>
    intro m h
    obtain ⟨i, v⟩ := e
    obtain ⟨hi, hne, htr⟩ := h (i, v) (by simp)
    show decodeGo (segOf i v :: segsFull rest) m = _
    simp only [decodeGo, decodeSeg_segOf v hi, trimL_append_nl2 htr hne]
    exact ih _ (fun e he => h e (List.mem_cons_of_mem _ he))

theorem decodeGo_segsTrim :
    ∀ (L : List (List Char × List Char)) (m : List (List Char × List Char)),
      (∀ e ∈ L, '\n' ∉ e.1 ∧ e.2 ≠ [] ∧ trimL e.2 = e.2) →
      decodeGo (segsTrim L) m = some (buildFrom m L) := by
  intro L
  match L with
  | [] => intro m _; rfl
  | [(i, v)] =>
    intro m h
    obtain ⟨hi, hne, htr⟩ := h (i, v) (by simp)
    show decodeGo [segTrim i v] m = _
    simp only [decodeGo, decodeSeg_segTrim v hi, htr]
    rfl
  | (i, v) :: r :: rs =>
    intro m h
    obtain ⟨hi, hne, htr⟩ := h (i, v) (by simp)
    show decodeGo (segOf i v :: segsTrim (r :: rs)) m = _
    simp only [decodeGo, decodeSeg_segOf v hi, trimL_append_nl2 htr hne]
    exact decodeGo_segsTrim (r :: rs) _ (fun e he => h e (List.mem_cons_of_mem _ he))

/-! ### Looking up identifiers in the built table -/

theorem buildFrom_eq_reverse_append :
    ∀ (L m : List (List Char × List Char)),
      (L.map Prod.fst).Nodup →
      (∀ i ∈ L.map Prod.fst, i ∉ m.map Prod.fst) →
      buildFrom m L = L.reverse ++ m := by
  intro L
  induction L with
  | nil => intro m _ _; rfl
  | cons e rest ih =>
    intro m hnd hdis
    obtain ⟨i, v⟩ := e
    rw [List.map_cons] at hnd
    have hkeys := List.nodup_cons.mp hnd
    have hfil : m.filter (fun p => p.1 != i) = m := by
      rw [List.filter_eq_self]
      intro p hp
      have hi : i ∉ m.map Prod.fst := hdis i (by simp)
      simp only [bne_iff_ne, ne_eq, decide_eq_true_eq]
      intro hpe
      exact hi (hpe ▸ List.mem_map_of_mem Prod.fst hp)
    have hupd : updSnap m i v = (i, v) :: m := by rw [updSnap, hfil]
    show buildFrom (updSnap m i v) rest = _
    rw [hupd]
    have hdis' : ∀ j ∈ rest.map Prod.fst, j ∉ ((i, v) :: m).map Prod.fst := by
      intro j hj
      simp only [List.map_cons, List.mem_cons, not_or]
      refine ⟨?_, hdis j (by simp [hj])⟩
      intro hji
      exact hkeys.1 (hji ▸ hj)
    rw [ih ((i, v) :: m) hkeys.2 hdis']
    simp

theorem lookup_eq_of_mem_nodup :
    ∀ {L : List (List Char × List Char)} {i v : List Char},
      (L.map Prod.fst).Nodup → (i, v) ∈ L → L.lookup i = some v := by
  intro L
  induction L with
  | nil => intro i v _ h; simp at h
  | cons e rest ih =>
    intro i v hnd hmem
    obtain ⟨j, w⟩ := e
    rw [List.map_cons] at hnd
    have hkeys := List.nodup_cons.mp hnd
    rcases List.mem_cons.mp hmem with heq | hmem'
    · injection heq with h1 h2
      subst h1
      subst h2
      simp [List.lookup]
    · have hij : i ≠ j := by
        rintro rfl
        have hin : i ∈ rest.map Prod.fst := List.mem_map_of_mem Prod.fst hmem'
        exact hkeys.1 hin
      simp only [List.lookup, beq_false_of_ne hij]
      exact ih hkeys.2 hmem'

theorem lookup_eq_none_of_not_mem_keys
    {L : List (List Char × List Char)} {i : List Char}
    (h : i ∉ L.map Prod.fst) : L.lookup i = none := by
  rw [List.lookup_eq_none_iff]
  intro p hp
  simp only [bne_iff_ne, ne_eq]
  intro hpe
  exact h (hpe ▸ List.mem_map_of_mem Prod.fst hp)

theorem mem_keys_exists_pair {L : List (List Char × List Char)} {i : List Char}
    (h : i ∈ L.map Prod.fst) : ∃ v, (i, v) ∈ L := by
  obtain ⟨e, he, hei⟩ := List.mem_map.mp h
  exact ⟨e.2, by rw [← hei]; simpa using he⟩

/-! ### Trimming a block sequence -/

theorem sep_cons : snapshotSeparator = '/' :: "* snapshot: ".toList := by decide

theorem sep_append_cons (y : List Char) :
    snapshotSeparator ++ y = '/' :: ("* snapshot: ".toList ++ y) := by
  rw [sep_cons]
  rfl

theorem trimLeftL_sep_append (y : List Char) :
    trimLeftL (snapshotSeparator ++ y) = snapshotSeparator ++ y := by
  rw [sep_append_cons, trimLeftL_cons_of_not_ws _ (by decide), ← sep_append_cons]

theorem trimL_sep_append (y : List Char) :
    trimL (snapshotSeparator ++ y) = trimRightL (snapshotSeparator ++ y) := by
  rw [trimL_decomp, trimLeftL_sep_append]

theorem trimL_blocksStr :
    ∀ L : List (List Char × List Char),
      (∀ e ∈ L, e.2 ≠ [] ∧ trimL e.2 = e.2) →
      trimL (blocksStr L) = blocksTrimmed L := by
  intro L
  match L with
  | [] => intro _; rfl
  | [(i, v)] =>
    intro h
    obtain ⟨hne, htr⟩ := h (i, v) (by simp)
    have hX : blocksStr [(i, v)] = (snapshotSeparator ++ segTrim i v) ++ nl2 := by
      show (snapshotSeparator ++ segOf i v) ++ [] = _
      simp [segOf, segTrim, List.append_assoc]
    have htrX : trimL (snapshotSeparator ++ segTrim i v) =
        snapshotSeparator ++ segTrim i v := by
      rw [trimL_sep_append]
      have hshape : snapshotSeparator ++ segTrim i v =
          ((snapshotSeparator ++ i) ++ starNl) ++ v := by
        simp [segTrim, List.append_assoc]
      rw [hshape]
      exact trimRightL_append_keep (trim_parts htr).2 hne
    have hXne : snapshotSeparator ++ segTrim i v ≠ [] := by
      rw [sep_append_cons]
      exact List.cons_ne_nil _ _
    rw [hX, trimL_append_nl2 htrX hXne]
    rfl
  | (i, v) :: r :: rs =>
    intro h
    have hrest := trimL_blocksStr (r :: rs) (fun e he => h e (List.mem_cons_of_mem _ he))
    have hrtrim : trimRightL (blocksStr (r :: rs)) = blocksTrimmed (r :: rs) := by
      obtain ⟨ri, rv⟩ := r
      have : blocksStr ((ri, rv) :: rs) =
          snapshotSeparator ++ (segOf ri rv ++ blocksStr rs) := by
        show (snapshotSeparator ++ segOf ri rv) ++ blocksStr rs = _
        simp [List.append_assoc]
      rw [this, ← trimL_sep_append, ← this]
      exact hrest
    have hbtne : blocksTrimmed (r :: rs) ≠ [] := by
      rw [blocksTrimmed_eq_sep_tail _ (List.cons_ne_nil _ _), sep_append_cons]
      exact List.cons_ne_nil _ _
    have hshape : blocksStr ((i, v) :: r :: rs) =
        snapshotSeparator ++ (segOf i v ++ blocksStr (r :: rs)) := by
      obtain ⟨ri, rv⟩ := r
      show (snapshotSeparator ++ segOf i v) ++ blocksStr ((ri, rv) :: rs) = _
      simp [List.append_assoc]
    rw [hshape, trimL_sep_append, ← hshape]
    show trimRightL ((snapshotSeparator ++ segOf i v) ++ blocksStr (r :: rs)) = _
    rw [trimRightL_append_left (by rw [hrtrim]; exact hbtne), hrtrim]
    obtain ⟨ri, rv⟩ := r
    rfl

/-! ### Decoding a whole well-formed file -/

theorem goodList_conds {L : List (List Char × List Char)} (hL : GoodList L) :
    (∀ e ∈ L, '\n' ∉ e.1 ∧ e.2 ≠ [] ∧ trimL e.2 = e.2) ∧
    (∀ e ∈ L, ¬ snapshotSeparator <:+: segOf e.1 e.2) := by
  constructor
  · intro e he
    obtain ⟨h1, h2, h3, _⟩ := hL.2 e he
    exact ⟨h1, h2, h3⟩
  · intro e he
    exact (hL.2 e he).2.2.2

theorem decode_blocksStr {L : List (List Char × List Char)} (hL : GoodList L) :
    decode (blocksStr L) = some L.reverse := by
  obtain ⟨hvals, hinf⟩ := goodList_conds hL
  unfold decode
  rw [splitOn_blocksStr L hinf, decodeGo_skip_empty, decodeGo_segsFull L [] hvals,
    buildFrom_eq_reverse_append L [] hL.1 (by simp)]
  rw [List.append_nil]

theorem decode_blocksTrimmed {L : List (List Char × List Char)} (hL : GoodList L) :
    decode (blocksTrimmed L) = some L.reverse := by
  obtain ⟨hvals, hinf⟩ := goodList_conds hL
  unfold decode
  rw [splitOn_blocksTrimmed L hinf, decodeGo_skip_empty, decodeGo_segsTrim L [] hvals,
    buildFrom_eq_reverse_append L [] hL.1 (by simp)]
  rw [List.append_nil]

theorem blocksStr_map_flatten (f : List Char → List Char) :
    ∀ ids : List (List Char),
      (ids.map (fun i => snapshotSeparator ++ i ++ starNl ++ f i ++ nl2)).flatten =
        blocksStr (ids.map (fun i => (i, f i))) := by
  intro ids
  induction ids with
  | nil => rfl
  | cons i rest ih =>
    show (snapshotSeparator ++ i ++ starNl ++ f i ++ nl2) ++ _ = _
    rw [ih]
    rfl

theorem encode_decode {L : List (List Char × List Char)} (hL : GoodList L) :
    ∃ L₂, decode (encode L.reverse) = some L₂ ∧
      ∀ j : List Char, L₂.lookup j = L.reverse.lookup j := by
  have hndrev : (L.reverse.map Prod.fst).Nodup := by
    rw [List.map_reverse]
    exact List.nodup_reverse.mpr hL.1
  have hperm : List.Perm ((L.reverse.map Prod.fst).mergeSort lexLe) (L.map Prod.fst) := by
    refine (List.mergeSort_perm _ lexLe).trans ?_
    rw [List.map_reverse]
    exact List.reverse_perm _
  set sorted := (L.reverse.map Prod.fst).mergeSort lexLe with hsorted
  set L' := sorted.map (fun j => (j, (L.reverse.lookup j).getD [])) with hL'
  have hkeysL' : L'.map Prod.fst = sorted := by
    have hcomp : Prod.fst ∘ (fun j : List Char => (j, (L.reverse.lookup j).getD [])) = id := rfl
    rw [hL', List.map_map, hcomp, List.map_id]
  have hmemL' : ∀ e ∈ L', e ∈ L := by
    intro e he
    obtain ⟨j, hj, rfl⟩ := List.mem_map.mp he
    have hjkeys : j ∈ L.map Prod.fst := hperm.mem_iff.mp hj
    obtain ⟨v, hv⟩ := mem_keys_exists_pair hjkeys
    have hlook : L.reverse.lookup j = some v :=
      lookup_eq_of_mem_nodup hndrev (List.mem_reverse.mpr hv)
    rw [hlook]
    simpa using hv
  have hgoodL' : GoodList L' := by
    constructor
    · rw [hkeysL']
      exact hperm.nodup_iff.mpr hL.1
    · intro e he
      exact hL.2 e (hmemL' e he)
  have hencode : encode L.reverse = trimL (blocksStr L') := by
    simp only [encode]
    rw [blocksStr_map_flatten (fun i => (L.reverse.lookup i).getD []) sorted]
  have htrim : trimL (blocksStr L') = blocksTrimmed L' :=
    trimL_blocksStr L' (fun e he =>
      ⟨(hgoodL'.2 e he).2.1, (hgoodL'.2 e he).2.2.1⟩)
  refine ⟨L'.reverse, ?_, ?_⟩
  · rw [hencode, htrim]
    exact decode_blocksTrimmed hgoodL'
  · intro j
    have hndrevL' : (L'.reverse.map Prod.fst).Nodup := by
      rw [List.map_reverse]
      exact List.nodup_reverse.mpr hgoodL'.1
    by_cases hj : j ∈ L.map Prod.fst
    · obtain ⟨v, hv⟩ := mem_keys_exists_pair hj
      have hlook : L.reverse.lookup j = some v :=
        lookup_eq_of_mem_nodup hndrev (List.mem_reverse.mpr hv)
      have hjL' : (j, v) ∈ L' := by
        rw [hL']
        refine List.mem_map.mpr ⟨j, hperm.mem_iff.mpr hj, ?_⟩
        rw [hlook]
        rfl
      have : L'.reverse.lookup j = some v :=
        lookup_eq_of_mem_nodup hndrevL' (List.mem_reverse.mpr hjL')
      rw [this, hlook]
    · have h1 : L.reverse.lookup j = none := by
        apply lookup_eq_none_of_not_mem_keys
        rw [List.map_reverse]
        exact fun hc => hj (List.mem_reverse.mp hc)
      have h2 : L'.reverse.lookup j = none := by
        apply lookup_eq_none_of_not_mem_keys
        rw [List.map_reverse]
        intro hc
        have : j ∈ L'.map Prod.fst := List.mem_reverse.mp hc
        rw [hkeysL'] at this
        exact hj (hperm.mem_iff.mp this)
      rw [h1, h2]

/-- Claim C4: decoding a well-formed snapshot file, re-encoding the record
set and decoding again yields a record set with exactly the same
identifier-to-value pairs as the first decode. -/
theorem decode_encode_decode_roundtrip (data : List Char) (h : WellFormedBytes data) :
    ∃ m₁ m₂, decode data = some m₁ ∧ decode (encode m₁) = some m₂ ∧
      ∀ j : List Char, m₂.lookup j = m₁.lookup j := by
  obtain ⟨L, rfl, hL⟩ := h
  obtain ⟨L₂, h2, h3⟩ := encode_decode hL
  exact ⟨L.reverse, L₂, decode_blocksStr hL, h2, h3⟩

/-- Witness for C4: a concrete well-formed two-record file. -/
theorem decode_encode_decode_roundtrip_witness :
    WellFormedBytes (blocksStr [("a".toList, "1".toList), ("b".toList, "2".toList)]) ∧
    (∃ m₁ m₂,
      decode (blocksStr [("a".toList, "1".toList), ("b".toList, "2".toList)]) = some m₁ ∧
      decode (encode m₁) = some m₂ ∧
      ∀ j : List Char, m₂.lookup j = m₁.lookup j) := by
  have hwf : WellFormedBytes
      (blocksStr [("a".toList, "1".toList), ("b".toList, "2".toList)]) := by
    refine ⟨[("a".toList, "1".toList), ("b".toList, "2".toList)], rfl, ?_⟩
    unfold GoodList GoodEntry segOf
    exact ⟨by decide, by decide⟩
  exact ⟨hwf, decode_encode_decode_roundtrip _ hwf⟩

/-! ### Claim C9: totality of decode -/

theorem splitAfterNl2_two {s : List Char} (h : '\n' ∈ s) :
    ∃ a b, splitAfterNl2 s = [a, b] := by
  induction s with
  | nil => simp at h
  | cons c cs ih =>
    by_cases hc : c = '\n'
    · exact ⟨[c], cs, by simp [splitAfterNl2, hc]⟩
    · have h' : '\n' ∈ cs := by
        rcases List.mem_cons.mp h with h1 | h1
        · exact absurd h1.symm hc
        · exact h1
      obtain ⟨a, b, hab⟩ := ih h'
      refine ⟨c :: a, b, ?_⟩
      simp only [splitAfterNl2, if_neg hc, hab]
      rfl

theorem decodeGo_total :
    ∀ (pieces : List (List Char)) (m : List (List Char × List Char)),
      (∀ s ∈ pieces, s ≠ [] → '\n' ∈ s) →
      ∃ m', decodeGo pieces m = some m' := by
  intro pieces
  induction pieces with
  | nil => exact fun m _ => ⟨m, rfl⟩
  | cons s rest ih =>
    intro m h
    by_cases hs : s = []
    · subst hs
      rw [decodeGo_skip_empty]
      exact ih m (fun t ht htne => h t (List.mem_cons_of_mem _ ht) htne)
    · obtain ⟨a, b, hab⟩ := splitAfterNl2_two (h s (by simp) hs)
      have hseg : decodeSeg m s =
          some (updSnap m (trimSuffixL a starNl) (trimL b)) := by
        unfold decodeSeg
        rw [if_neg hs, hab]
      simp only [decodeGo, hseg]
      exact ih _ (fun t ht htne => h t (List.mem_cons_of_mem _ ht) htne)

/-- Claim C9 (amended): `decode` never returns a non-nil error, and on
every input all of whose non-empty delimiter-split pieces contain a
newline it returns a record set; but it is not total — a piece without a
newline (a delimiter line not terminated by a newline) makes the Go code
panic with an index out of range instead of returning. -/
theorem decode_returns_on_newline_terminated (data : List Char)
    (h : ∀ s ∈ splitOnL snapshotSeparator data, s ≠ [] → '\n' ∈ s) :
    ∃ m, decode data = some m := by
  unfold decode
  exact decodeGo_total _ [] h

/-- Witness for the amended C9: one well-terminated one-record input. -/
theorem decode_returns_on_newline_terminated_witness :
    ∃ m, decode "/* snapshot: a */\nv".toList = some m :=
  decode_returns_on_newline_terminated _ (by decide)

/-- Counterexample to C9 as stated: on a delimiter line not terminated by a
newline, `decode` does not return a record set with a nil error — the Go
code indexes past the end of the two-way split and panics (modelled as
`none`). -/
theorem decode_panics_without_newline :
    decode "/* snapshot: x */".toList = none := by decide

/-! ## Run-mode flags, configuration and the snapshot registry -/

/-- Modelled from the spec: the run-mode flags of §6 ("should update
snapshots" and "is single run"); the `arguments` type and `getArguments`
live in a source file that was not provided. -/
structure Arguments where
  shouldUpdate : Bool
  singleRun : Bool
deriving DecidableEq

/-- Modelled from the spec: the user-supplied configuration object of §6 —
"a default-substitution table (key → replacement value, applied to matching
header keys and JSON body keys) and a unified-diff-style toggle"; the
`config` type and `getConfig` live in a source file that was not provided.
`getConfig` may yield no configuration at all, hence `Option Config`
wherever the Go code checks `c != nil`. -/
structure Config where
  Defaults : List (List Char × Json)
  UnifiedDiff : Bool

/-- The `snapshot` record struct of `snapshot.go`. -/
structure Snapshot where
  id : List Char
  value : List Char
  path : List Char
  evaluated : Bool
  shouldRemove : Bool
deriving DecidableEq

/-- The error `CleanupOrFail` builds with `fmt.Errorf("%d unused snapshots", failed)`. -/
inductive GoError where
  | unusedSnapshots : Nat → GoError
deriving DecidableEq

/-- Embedding of `Cleanup` from `snapshot.go`: in update mode outside a
single run, mark every never-evaluated record for removal, then persist.
Persistence I/O is outside the model, so the `save` error result is `none`. -/
def Cleanup (args : Arguments) (snaps : List Snapshot) :
    List Snapshot × Option GoError :=
  (snaps.map (fun s =>
    if !s.evaluated && args.shouldUpdate && !args.singleRun then
      { s with shouldRemove := true }
    else s), none)

/-- Embedding of `CleanupOrFail` from `snapshot.go`. -/
def CleanupOrFail (args : Arguments) (snaps : List Snapshot) : Option GoError :=
  if args.singleRun then none
  else if args.shouldUpdate then (Cleanup args snaps).2
  else
    let failed := (snaps.filter (fun s => !s.evaluated)).length
    if failed > 0 then some (.unusedSnapshots failed) else none

/-- Claim C5: with single-run off and update off, `CleanupOrFail` errors
exactly when some record is unevaluated, carrying the count of unevaluated
records; with single-run on it is a no-op success. -/
theorem CleanupOrFail_strict_pass (args : Arguments) (snaps : List Snapshot) :
    (args.singleRun = true → CleanupOrFail args snaps = none) ∧
    (args.singleRun = false → args.shouldUpdate = false →
      CleanupOrFail args snaps =
        (if (snaps.filter (fun s => !s.evaluated)).length = 0 then none
          else some (GoError.unusedSnapshots
            ((snaps.filter (fun s => !s.evaluated)).length)))) := by
  constructor
  · intro h
    simp [CleanupOrFail, h]
  · intro h1 h2
    simp only [CleanupOrFail, h1, Bool.false_eq_true, if_false, h2]
    by_cases hk : (snaps.filter (fun s => !s.evaluated)).length = 0
    · simp [hk]
    · simp [hk, Nat.pos_of_ne_zero hk]

/-- Witness for C5: single-run returns nil; two unevaluated records make a
count-2 error. -/
theorem CleanupOrFail_strict_pass_witness :
    CleanupOrFail ⟨false, true⟩ [] = none ∧
    CleanupOrFail ⟨false, false⟩
        [⟨"a".toList, [], "p".toList, false, false⟩,
         ⟨"b".toList, [], "p".toList, false, false⟩] =
      some (GoError.unusedSnapshots 2) := by
  refine ⟨(CleanupOrFail_strict_pass ⟨false, true⟩ []).1 rfl, ?_⟩
  rw [(CleanupOrFail_strict_pass ⟨false, false⟩
    [⟨"a".toList, [], "p".toList, false, false⟩,
     ⟨"b".toList, [], "p".toList, false, false⟩]).2 rfl rfl]
  decide

/-- Embedding of `save` from `snapshot.go`, at the level of which records
reach which file: records are grouped by owning path, groups with the
empty path are skipped, and within a written group every record marked
should-remove is skipped.  (The byte serialisation of a group is `encode`;
the write itself is I/O outside the model.) -/
def save (snaps : List Snapshot) : List (List Char × List Snapshot) :=
  ((snaps.map (fun s => s.path)).dedup).filterMap (fun p =>
    if p = [] then none
    else some (p, (snaps.filter (fun s => s.path == p)).filter
      (fun s => !s.shouldRemove)))

/-- Claim C6: `save` writes to each non-empty owning path exactly the
records of that path not marked should-remove; no removed record and no
record with an empty path is ever part of a write. -/
theorem save_excludes_removed (snaps : List Snapshot) :
    (∀ p recs, (p, recs) ∈ save snaps →
      p ≠ [] ∧ ∀ r ∈ recs, r.shouldRemove = false ∧ r.path = p) ∧
    (∀ r ∈ snaps, r.path ≠ [] → r.shouldRemove = false →
      ∃ recs, (r.path, recs) ∈ save snaps ∧ r ∈ recs) := by
  constructor
  · intro p recs hmem
    obtain ⟨q, hq, hsome⟩ := List.mem_filterMap.mp hmem
    by_cases hqe : q = []
    · rw [if_pos hqe] at hsome
      exact absurd hsome (by simp)
    · rw [if_neg hqe] at hsome
      injection hsome with hsome
      injection hsome with hp hrecs
      subst hp
      refine ⟨hqe, ?_⟩
      intro r hr
      rw [← hrecs] at hr
      have h1 := List.mem_filter.mp hr
      have h2 := List.mem_filter.mp h1.1
      refine ⟨by simpa using h1.2, ?_⟩
      have := h2.2
      simpa [beq_iff_eq] using this
  · intro r hr hpne hrm
    have hpmem : r.path ∈ (snaps.map (fun s => s.path)).dedup :=
      List.mem_dedup.mpr (List.mem_map_of_mem _ hr)
    refine ⟨(snaps.filter (fun s => s.path == r.path)).filter
      (fun s => !s.shouldRemove), ?_, ?_⟩
    · exact List.mem_filterMap.mpr ⟨r.path, hpmem, by rw [if_neg hpne]⟩
    · refine List.mem_filter.mpr ⟨List.mem_filter.mpr ⟨hr, ?_⟩, ?_⟩
      · simp
      · simp [hrm]

/-- Witness for C6: a registry with a kept record, a removed record and an
unowned record; the kept record is written to its file. -/
theorem save_excludes_removed_witness :
    ∃ recs, ("p".toList, recs) ∈
        save [⟨"a".toList, "1".toList, "p".toList, true, false⟩,
              ⟨"b".toList, "2".toList, "p".toList, false, true⟩,
              ⟨"c".toList, "3".toList, [], true, false⟩] ∧
      (⟨"a".toList, "1".toList, "p".toList, true, false⟩ : Snapshot) ∈ recs :=
  (save_excludes_removed _).2 ⟨"a".toList, "1".toList, "p".toList, true, false⟩
    (by decide) (by decide) (by decide)

/-! ## The load-once registry latch (claim C10) -/

/-- The process-global load state: the `sync.Once` latch `snapshotsLoaded`
together with the registry `allSnapshots`. -/
structure LoadState where
  loadedOnce : Bool
  registry : List Snapshot
deriving DecidableEq

/-- The errors the directory scan can produce before any file is read. -/
inductive LoadErr where
  | locateTestPath : LoadErr
  | createSnapshotDirectory : LoadErr
  | readDir : LoadErr
deriving DecidableEq

/-- The state at process start: latch unfired, `allSnapshots` nil. -/
def initialLoadState : LoadState := ⟨false, []⟩

/-- Embedding of `loadSnapshots` from `snapshot.go`: `snapshotsLoaded.Do`
runs `reloadSnapshots` only if it has never run, and on every later call
skips the body, leaving the named error result at its zero value `nil`.
The directory scan performed by `reloadSnapshots` is I/O, abstracted as its
outcome `scan`; on a failed scan `allSnapshots` keeps its previous value,
because it is only assigned on the success path. -/
def loadSnapshots (scan : Except LoadErr (List Snapshot)) (st : LoadState) :
    LoadState × Option LoadErr :=
  if st.loadedOnce then (st, none)
  else
    match scan with
    | .ok reg => ({ loadedOnce := true, registry := reg }, none)
    | .error e => ({ loadedOnce := true, registry := st.registry }, some e)

/-- Claim C10: after any first `loadSnapshots` call completes, every later
call returns a nil error without re-scanning (its result does not depend on
the scan outcome and leaves the state unchanged); a failed first load from
the initial state reports its error once, is never retried, and leaves
later callers an empty registry with no error. -/
theorem loadSnapshots_once (scan scan₂ : Except LoadErr (List Snapshot))
    (st : LoadState) :
    (loadSnapshots scan₂ (loadSnapshots scan st).1 =
      ((loadSnapshots scan st).1, none)) ∧
    (∀ e, scan = .error e →
      (loadSnapshots scan initialLoadState).2 = some e ∧
      (loadSnapshots scan initialLoadState).1.registry = [] ∧
      loadSnapshots scan₂ (loadSnapshots scan initialLoadState).1 =
        ((loadSnapshots scan initialLoadState).1, none)) := by
  constructor
  · unfold loadSnapshots
    by_cases h : st.loadedOnce
    · simp [h]
    · simp only [h, Bool.false_eq_true, if_false]
      cases scan <;> simp
  · intro e he
    subst he
    exact ⟨rfl, rfl, rfl⟩

/-- Witness for C10: a failed scan from the initial state, followed by a
call that would succeed but is skipped by the latch. -/
theorem loadSnapshots_once_witness :
    (loadSnapshots (.error .readDir) initialLoadState).2 = some LoadErr.readDir ∧
    (loadSnapshots (.error .readDir) initialLoadState).1.registry = [] ∧
    loadSnapshots (.ok [⟨"a".toList, "1".toList, "p".toList, false, false⟩])
        (loadSnapshots (.error .readDir) initialLoadState).1 =
      ((loadSnapshots (.error .readDir) initialLoadState).1, none) :=
  (loadSnapshots_once (.error .readDir)
    (.ok [⟨"a".toList, "1".toList, "p".toList, false, false⟩])
    initialLoadState).2 LoadErr.readDir rfl

/-! ## The text-diff collaborators and the generic comparison (`assert.go`) -/

/-- Hunk kinds of the character-diff collaborator. -/
inductive DiffOp where
  | equal : DiffOp
  | insert : DiffOp
  | delete : DiffOp
deriving DecidableEq

/-- Modelled from the spec: the external character-diff collaborator
(`diffmatchpatch.DiffMain`), per §1 a black-box "compute diff between two
strings" service — equal inputs yield only equal hunks, distinct inputs
yield a deleted and an inserted hunk. -/
def diffMainModel (a b : List Char) : List (DiffOp × List Char) :=
  if a = b then [(DiffOp.equal, a)] else [(DiffOp.delete, a), (DiffOp.insert, b)]

/-- Modelled from the spec: `DiffPrettyText`, rendering the hunks as text;
the model concatenates the hunk texts. -/
def diffPrettyTextModel (ds : List (DiffOp × List Char)) : List Char :=
  (ds.map (fun d => d.2)).flatten

/-- Modelled from the spec: the unified-diff collaborator
(`myers.ComputeEdits` rendered by `gotextdiff.ToUnified`): equal inputs
produce no edits and an empty rendering, distinct inputs a non-empty one. -/
def unifiedDiffModel (existing new : List Char) : List Char :=
  if existing = new then []
  else "--- a.txt\n+++ b.txt\n".toList ++ existing ++ new

/-- Embedding of `compareResults` from `assert.go`: with a configuration
requesting unified diffs, render a unified diff; otherwise run the
character diff and render it only when some hunk differs. -/
def compareResults (c : Option Config) (existing new : List Char) : List Char :=
  if c.elim false (fun cfg => cfg.UnifiedDiff) then unifiedDiffModel existing new
  else
    let allDiffs := diffMainModel existing new
    let nonEqualDiffs := allDiffs.filter (fun d => d.1 != DiffOp.equal)
    if nonEqualDiffs.isEmpty then [] else diffPrettyTextModel allDiffs

theorem compareResults_self (c : Option Config) (x : List Char) :
    compareResults c x x = [] := by
  unfold compareResults
  split
  · simp [unifiedDiffModel]
  · simp [diffMainModel, List.filter]

theorem compareResults_ne (c : Option Config) {x y : List Char} (h : x ≠ y) :
    compareResults c x y ≠ [] := by
  unfold compareResults
  split
  · simp only [unifiedDiffModel, if_neg h]
    intro hc
    exact absurd (congrArg List.length hc) (by simp)
  · have hdm : diffMainModel x y = [(DiffOp.delete, x), (DiffOp.insert, y)] := by
      rw [diffMainModel, if_neg h]
    rw [hdm]
    have hfil : [(DiffOp.delete, x), (DiffOp.insert, y)].filter
        (fun d => d.1 != DiffOp.equal) =
          [(DiffOp.delete, x), (DiffOp.insert, y)] := rfl
    simp only [hfil, List.isEmpty_cons, Bool.false_eq_true, if_false]
    intro hc
    simp only [diffPrettyTextModel, List.map_cons, List.map_nil, List.flatten,
      List.append_nil, List.append_eq_nil] at hc
    exact h (hc.1.trans hc.2.symm)

/-! ## HTTP request/response normalisation (`assert_http.go`) -/

/-- The `httpRequest` struct: header lines plus body. -/
structure HttpRequest where
  header : List (List Char)
  body : List Char
deriving DecidableEq

/-- Embedding of `headerDump`: the header lines joined by newlines. -/
def headerDump (h : HttpRequest) : List Char := joinSep '\n' h.header

/-- Embedding of `dump`: header dump, blank line, body. -/
def dump (h : HttpRequest) : List Char :=
  headerDump h ++ "\n\n".toList ++ h.body

/-- Embedding of `plainToInternalRequest`: split the trimmed dump into
lines; the header is every line before the first blank line and the body is
the trimmed join of the remaining lines. -/
def plainToInternalRequest (requestDump : List Char) : HttpRequest :=
  let lines := splitOnChar '\n' (trimL requestDump)
  let hdr := lines.takeWhile (fun l => trimL l != [])
  { header := hdr, body := trimL (joinSep '\n' (lines.drop hdr.length)) }

/-- Modelled from the spec: `fmt.Sprintf("%s", v)` on an `interface{}`
substitution value (the Go standard formatter is an external collaborator);
only its scalar cases matter to any claim. -/
def goFormatValue : Json → List Char
  | .null => "<nil>".toList
  | .boolean true => "true".toList
  | .boolean false => "false".toList
  | .str s => s
  | .num s => s
  | .arr _ => "[...]".toList
  | .obj _ => "map[...]".toList

/-- Embedding of `configCleanup`: replace the value of every header line
whose key (the text before the first colon, trimmed) appears in the
default-substitution table. -/
def configCleanup (c : Option Config) (h : HttpRequest) : HttpRequest :=
  match c with
  | none => h
  | some cfg =>
    { h with header := h.header.map (fun line =>
        let headerItem := splitOnChar ':' line
        let key := trimL headerItem.headI
        match cfg.Defaults.lookup key with
        | some d => headerItem.headI ++ ": ".toList ++ goFormatValue d
        | none => line) }

/-- Result kinds of the structural JSON diff (`nsf/jsondiff`). -/
inductive JsonDiffKind where
  | fullMatch : JsonDiffKind
  | supersetMatch : JsonDiffKind
  | noMatch : JsonDiffKind
  | firstArgIsInvalidJson : JsonDiffKind
  | secondArgIsInvalidJson : JsonDiffKind
  | bothArgsAreInvalidJson : JsonDiffKind
deriving DecidableEq

/-- The external collaborators of the HTTP-JSON comparison, per §1 all
black boxes: the JSON codec of `encoding/json` (parse into a generic
top-level object, re-serialise with indentation), the structural JSON diff
(`nsf/jsondiff.Compare`) and the character diff (`diffmatchpatch`). -/
structure Collab where
  jsonParse : List Char → Option (List (List Char × Json))
  jsonRender : List (List Char × Json) → List Char
  jsonCompare : List Char → List Char → JsonDiffKind × List Char
  diffMain : List Char → List Char → List (DiffOp × List Char)
  prettyText : List (DiffOp × List Char) → List Char

/-- Embedding of `jsonBodyCleanup`: blank bodies pass through untouched; a
body that fails to parse returns the error with the request unchanged;
otherwise every configured default key is substituted throughout the
document and the body re-serialised. -/
def jsonBodyCleanup (co : Collab) (c : Option Config) (h : HttpRequest) :
    Except Unit HttpRequest :=
  if trimL h.body = [] then .ok h
  else
    match co.jsonParse h.body with
    | none => .error ()
    | some jsonIface =>
      let jsonIface :=
        match c with
        | some cfg => cfg.Defaults.foldl
            (fun acc kv => updateKeyValuesInMap kv.1 kv.2 acc) jsonIface
        | none => jsonIface
      .ok { h with body := co.jsonRender jsonIface }

/-- Embedding of `compareResultsHTTPRequestJSON` from `assert_http.go`:
normalise both dumps, diff the headers with the character diff, then
classify the bodies with the structural JSON diff; every classification
other than a full match appends a newline and its annotation to the header
diff — including the both-bodies-empty case, which returns right after the
newline has been appended. -/
def compareResultsHTTPRequestJSON (co : Collab) (c : Option Config)
    (existing new : List Char) : List Char :=
  let existingR := plainToInternalRequest existing
  let newR := plainToInternalRequest new
  let existingR := configCleanup c existingR
  let newR := configCleanup c newR
  let existingR :=
    match jsonBodyCleanup co c existingR with
    | .ok r => r
    | .error _ => existingR
  let newR :=
    match jsonBodyCleanup co c newR with
    | .ok r => r
    | .error _ => newR
  let allDiffs := co.diffMain (headerDump existingR) (headerDump newR)
  let nonEqualDiffs := allDiffs.filter (fun d => d.1 != DiffOp.equal)
  let diffSoFar := if nonEqualDiffs.isEmpty then [] else co.prettyText allDiffs
  let jd := co.jsonCompare existingR.body newR.body
  if jd.1 = JsonDiffKind.fullMatch then diffSoFar
  else
    let diffSoFar := diffSoFar ++ "\n".toList
    match jd.1 with
    | .supersetMatch => diffSoFar ++ jd.2
    | .noMatch => diffSoFar ++ jd.2
    | .firstArgIsInvalidJson =>
      diffSoFar ++ "ERROR: Existing body is not valid JSON".toList
    | .secondArgIsInvalidJson =>
      diffSoFar ++ "ERROR: New body is not valid JSON".toList
    | .bothArgsAreInvalidJson =>
      if existingR.body.length = newR.body.length ∧ newR.body.length = 0 then
        diffSoFar
      else
        diffSoFar ++ "ERROR: Neither Existing nor New bodies are valid JSON\n".toList ++
          dump existingR ++ "\n".toList ++ dump newR
    | .fullMatch => diffSoFar

theorem configCleanup_body (c : Option Config) (h : HttpRequest) :
    (configCleanup c h).body = h.body := by
  cases c <;> rfl

theorem jsonBodyCleanup_empty (co : Collab) (c : Option Config)
    {h : HttpRequest} (hb : h.body = []) : jsonBodyCleanup co c h = .ok h := by
  unfold jsonBodyCleanup
  rw [hb]
  rfl

/-! ### Claim C1: both bodies empty under the HTTP-JSON comparison -/

/-- Claim C1 (what the code actually does): when both sides parse to an
empty body and the headers diff clean, the both-invalid-JSON
classification hits its tolerated empty-empty case — but only after the
newline separator has already been appended, so the comparison returns
`"\n"` rather than the empty string, and the caller treats the pair as a
mismatch. -/
theorem compareResultsHTTPRequestJSON_empty_both_invalid
    (co : Collab) (c : Option Config) (data : List Char)
    (hbody : (plainToInternalRequest data).body = [])
    (hdm : ∀ a, (co.diffMain a a).filter (fun d => d.1 != DiffOp.equal) = [])
    (hjc : ∃ expl, co.jsonCompare [] [] = (JsonDiffKind.bothArgsAreInvalidJson, expl)) :
    compareResultsHTTPRequestJSON co c data data = "\n".toList := by
  obtain ⟨expl, hexpl⟩ := hjc
  have hb1 : (configCleanup c (plainToInternalRequest data)).body = [] := by
    rw [configCleanup_body]
    exact hbody
  have hcl : jsonBodyCleanup co c (configCleanup c (plainToInternalRequest data)) =
      .ok (configCleanup c (plainToInternalRequest data)) :=
    jsonBodyCleanup_empty co c hb1
  unfold compareResultsHTTPRequestJSON
  simp only [hcl, hdm, hb1, hexpl, List.isEmpty_nil, if_true]
  simp

/-- One concrete instance of the black-box collaborators, used only to
witness hypotheses about them: the modelled character diff, and a JSON
comparison that classifies two empty (hence invalid) bodies as
both-invalid. -/
def collabWitness : Collab where
  jsonParse := fun _ => none
  jsonRender := fun _ => []
  jsonCompare := fun a b =>
    if a = [] ∧ b = [] then (JsonDiffKind.bothArgsAreInvalidJson, [])
    else if a = b then (JsonDiffKind.fullMatch, [])
    else (JsonDiffKind.noMatch, "JSON bodies differ".toList)
  diffMain := diffMainModel
  prettyText := diffPrettyTextModel

/-- Witness for C1: a concrete header-only dump compared against itself. -/
theorem compareResultsHTTPRequestJSON_empty_both_invalid_witness :
    compareResultsHTTPRequestJSON collabWitness none
        "GET / HTTP/1.1\nHost: example.com\n\n".toList
        "GET / HTTP/1.1\nHost: example.com\n\n".toList = "\n".toList :=
  compareResultsHTTPRequestJSON_empty_both_invalid collabWitness none _
    (by decide)
    (fun a => by simp [collabWitness, diffMainModel])
    ⟨[], by decide⟩

/-! ## The create-or-update workflow (`assert.go`) -/

/-- The `SnapshotType` tag `SnapshotGeneric` (the empty string). -/
def SnapshotGeneric : List Char := []

/-- The `SnapshotType` tag `SnapshotHTTPRespJSON`. -/
def SnapshotHTTPRespJSON : List Char := "HTTPContentTypeJSON".toList

/-- `didNotMatchMessage` from `assert.go`. -/
def didNotMatchMessage (id diff : List Char) : List Char :=
  "\n\n## Existing snapshot does not match results...\n## \"".toList ++ id ++
    "\"\n\n".toList ++ diff ++
    "\n\nIf this change was intentional, run tests again, $ go test -v -- -u\n".toList

/-- `newSnapshotMessage` from `assert.go`. -/
def newSnapshotMessage (id body : List Char) : List Char :=
  "\n\n## New snapshot found...\n## \"".toList ++ id ++ "\"\n\n".toList ++ body ++
    "\n\nTo save, run tests again, $ go test -v -- -u\n".toList

/-- Embedding of `getSnapshot` (Go map lookup `allSnapshots[id]`, with the
registry passed explicitly and already loaded). -/
def getSnapshot (reg : List Snapshot) (id : List Char) : Option Snapshot :=
  reg.find? (fun s => s.id == id)

/-- Embedding of `writeSnapshot`: build the record (path derived from the
testing package, `evaluated` from `isUpdate`, `shouldRemove` zero-valued),
replace any record of the same identifier, persist.  The persistence call
(`save`) performs I/O outside this model. -/
def writeSnapshot (reg : List Snapshot) (pkgPath id value : List Char)
    (isUpdate : Bool) : List Snapshot :=
  reg.filter (fun s => s.id != id) ++
    [{ id := id, value := value, path := pkgPath, evaluated := isUpdate,
       shouldRemove := false }]

/-- The `snapshot.evaluated = true` assignments in `createOrUpdateSnapshot`
(written through a pointer into the registry map). -/
def markEvaluated (reg : List Snapshot) (id : List Char) : List Snapshot :=
  reg.map (fun s => if s.id == id then { s with evaluated := true } else s)

/-- How one assertion call ends: silent pass, test failure with a message,
or a create/update notice in update mode. -/
inductive AssertOutcome where
  | pass : AssertOutcome
  | errorNewSnapshot : List Char → AssertOutcome
  | created : AssertOutcome
  | updated : AssertOutcome
  | errorDidNotMatch : List Char → AssertOutcome
deriving DecidableEq

/-- Embedding of `createOrUpdateSnapshot` from `assert.go`: no record →
fail with the new-snapshot message, or (update mode) create the record
with the raw value and mark it evaluated; record found → mark evaluated,
compare the stored value against the trimmed new value with the
format-appropriate comparison, and on a non-empty diff either update the
record (update mode) or fail with the did-not-match message. -/
def createOrUpdateSnapshot (co : Collab) (args : Arguments) (c : Option Config)
    (pkgPath : List Char) (reg : List Snapshot) (id data : List Char)
    (format : List Char) : List Snapshot × AssertOutcome :=
  match getSnapshot reg id with
  | none =>
    if !args.shouldUpdate then (reg, .errorNewSnapshot (newSnapshotMessage id data))
    else (markEvaluated (writeSnapshot reg pkgPath id data false) id, .created)
  | some snapshot =>
    let reg := markEvaluated reg id
    let diff :=
      if format = SnapshotHTTPRespJSON then
        compareResultsHTTPRequestJSON co c snapshot.value (trimL data)
      else compareResults c snapshot.value (trimL data)
    if diff ≠ [] then
      if args.shouldUpdate then (writeSnapshot reg pkgPath id data true, .updated)
      else (reg, .errorDidNotMatch (didNotMatchMessage id diff))
    else (reg, .pass)

/-! ### Claim C3: idempotence of create-then-compare -/

theorem map_eq_self_of_mem {α : Type} {l : List α} {f : α → α}
    (h : ∀ x ∈ l, f x = x) : l.map f = l := by
  induction l with
  | nil => rfl
  | cons a rest ih =>
    rw [List.map_cons, h a (by simp), ih (fun x hx => h x (List.mem_cons_of_mem _ hx))]

theorem find?_append_of_none {α : Type} {p : α → Bool} :
    ∀ {l₁ : List α} (l₂ : List α), l₁.find? p = none →
      (l₁ ++ l₂).find? p = l₂.find? p := by
  intro l₁
  induction l₁ with
  | nil => intro l₂ _; rfl
  | cons a l ih =>
    intro l₂ h
    cases hpa : p a with
    | true => rw [List.find?_cons_of_pos _ hpa] at h; exact absurd h (by simp)
    | false =>
      rw [List.find?_cons_of_neg _ (by simp [hpa])] at h
      rw [List.cons_append, List.find?_cons_of_neg _ (by simp [hpa])]
      exact ih l₂ h

theorem getSnapshot_none_conds {reg : List Snapshot} {id : List Char}
    (h : getSnapshot reg id = none) : ∀ s ∈ reg, (s.id == id) = false := by
  intro s hs
  have := List.find?_eq_none.mp h s hs
  simpa using this

/-- Claim C3 (amended): in update mode with no prior record, creating a
snapshot for a value with no leading or trailing whitespace and asserting
the same value again yields an empty generic diff, a silent pass, and an
unchanged registry. -/
theorem createOrUpdateSnapshot_idempotent (co : Collab) (args : Arguments)
    (c : Option Config) (pkgPath : List Char) (reg : List Snapshot)
    (id data : List Char)
    (hupd : args.shouldUpdate = true)
    (hnone : getSnapshot reg id = none)
    (htrim : trimL data = data) :
    compareResults c data (trimL data) = [] ∧
    (createOrUpdateSnapshot co args c pkgPath reg id data SnapshotGeneric).2 =
      AssertOutcome.created ∧
    (createOrUpdateSnapshot co args c pkgPath
      (createOrUpdateSnapshot co args c pkgPath reg id data SnapshotGeneric).1
      id data SnapshotGeneric).2 = AssertOutcome.pass ∧
    (createOrUpdateSnapshot co args c pkgPath
      (createOrUpdateSnapshot co args c pkgPath reg id data SnapshotGeneric).1
      id data SnapshotGeneric).1 =
      (createOrUpdateSnapshot co args c pkgPath reg id data SnapshotGeneric).1 := by
  have hconds := getSnapshot_none_conds hnone
  have hfil : reg.filter (fun s => s.id != id) = reg := by
    rw [List.filter_eq_self]
    intro s hs
    have hne : ¬ s.id = id := fun he => by
      have hbeq : (s.id == id) = true := beq_iff_eq.mpr he
      rw [hconds s hs] at hbeq
      exact Bool.false_ne_true hbeq
    simp [hne]
  have hregpart : reg.map
      (fun s => if s.id == id then { s with evaluated := true } else s) = reg :=
    map_eq_self_of_mem (fun s hs => by rw [hconds s hs]; rfl)
  have h1 : createOrUpdateSnapshot co args c pkgPath reg id data SnapshotGeneric =
      (reg ++ [⟨id, data, pkgPath, true, false⟩], AssertOutcome.created) := by
    unfold createOrUpdateSnapshot
    rw [hnone, hupd]
    simp only [Bool.not_true, Bool.false_eq_true, if_false]
    unfold writeSnapshot markEvaluated
    rw [hfil, List.map_append, hregpart]
    simp
  have hfind : getSnapshot (reg ++ [⟨id, data, pkgPath, true, false⟩]) id =
      some ⟨id, data, pkgPath, true, false⟩ := by
    unfold getSnapshot
    rw [find?_append_of_none _ hnone, List.find?_cons_of_pos _ (by simp)]
  have h3 : markEvaluated (reg ++ [⟨id, data, pkgPath, true, false⟩]) id =
      reg ++ [⟨id, data, pkgPath, true, false⟩] := by
    unfold markEvaluated
    rw [List.map_append, hregpart]
    simp
  have h4 : createOrUpdateSnapshot co args c pkgPath
      (reg ++ [⟨id, data, pkgPath, true, false⟩]) id data SnapshotGeneric =
      (reg ++ [⟨id, data, pkgPath, true, false⟩], AssertOutcome.pass) := by
    unfold createOrUpdateSnapshot
    rw [hfind]
    have hdiff : compareResults c
        (Snapshot.value ⟨id, data, pkgPath, true, false⟩) (trimL data) = [] := by
      show compareResults c data (trimL data) = []
      rw [htrim]
      exact compareResults_self c data
    simp only [show ¬ (SnapshotGeneric = SnapshotHTTPRespJSON) from by decide,
      if_false, hdiff, ne_eq, not_true_eq_false, h3]
  have hr1 : (createOrUpdateSnapshot co args c pkgPath reg id data SnapshotGeneric).1 =
      reg ++ [⟨id, data, pkgPath, true, false⟩] := by rw [h1]
  refine ⟨by rw [htrim]; exact compareResults_self c data, by rw [h1], ?_, ?_⟩
  · rw [hr1, h4]
  · rw [hr1, h4]

/-- Witness for the amended C3: creating and re-asserting the trimmed value
`x` under identifier `a` in an empty registry. -/
theorem createOrUpdateSnapshot_idempotent_witness :
    compareResults none "x".toList (trimL "x".toList) = [] ∧
    (createOrUpdateSnapshot collabWitness ⟨true, false⟩ none "pkg".toList []
      "a".toList "x".toList SnapshotGeneric).2 = AssertOutcome.created ∧
    (createOrUpdateSnapshot collabWitness ⟨true, false⟩ none "pkg".toList
      (createOrUpdateSnapshot collabWitness ⟨true, false⟩ none "pkg".toList []
        "a".toList "x".toList SnapshotGeneric).1
      "a".toList "x".toList SnapshotGeneric).2 = AssertOutcome.pass ∧
    (createOrUpdateSnapshot collabWitness ⟨true, false⟩ none "pkg".toList
      (createOrUpdateSnapshot collabWitness ⟨true, false⟩ none "pkg".toList []
        "a".toList "x".toList SnapshotGeneric).1
      "a".toList "x".toList SnapshotGeneric).1 =
      (createOrUpdateSnapshot collabWitness ⟨true, false⟩ none "pkg".toList []
        "a".toList "x".toList SnapshotGeneric).1 :=
  createOrUpdateSnapshot_idempotent collabWitness ⟨true, false⟩ none "pkg".toList []
    "a".toList "x".toList rfl rfl (by decide)

/-- Counterexample to C3 as stated: for the computed value `" x"` (leading
whitespace), the snapshot is created with the raw value but the second
assertion compares it against the trimmed value, finds a non-empty diff,
and in update mode rewrites the record instead of passing untouched. -/
theorem createOrUpdateSnapshot_not_idempotent_untrimmed :
    (createOrUpdateSnapshot collabWitness ⟨true, false⟩ none "pkg".toList
      (createOrUpdateSnapshot collabWitness ⟨true, false⟩ none "pkg".toList []
        "a".toList " x".toList SnapshotGeneric).1
      "a".toList " x".toList SnapshotGeneric).2 = AssertOutcome.updated ∧
    (createOrUpdateSnapshot collabWitness ⟨true, false⟩ none "pkg".toList
      (createOrUpdateSnapshot collabWitness ⟨true, false⟩ none "pkg".toList []
        "a".toList " x".toList SnapshotGeneric).1
      "a".toList " x".toList SnapshotGeneric).2 ≠ AssertOutcome.pass := by
  constructor
  · decide
  · decide
